import Mathlib

/-!
Verification of the message-template generator backend.

Strings are modeled as List Char.  Python string operations used by the code
(split, count, replace, strip, join, substring membership) are given direct
recursive definitions below, each matching CPython semantics for the non-empty
separators the code uses.  Floats are modeled as rationals; int(x * 0.7) is
modeled as floor(7 * x / 10), which agrees with the float computation
throughout the token ranges the code can produce.
-/

set_option linter.unusedVariables false

namespace MTG

/-- Whitespace recognized by Python str.strip() (ASCII fragment; the inputs
the code strips are ASCII). -/
def isPyWs (c : Char) : Bool :=
  (c == ' ') || (c == '\t') || (c == '\n') || (c == '\r') || (c == '\x0b') || (c == '\x0c')

/-- Drop leading characters satisfying p. -/
def stripLeading (p : Char → Bool) (s : List Char) : List Char := s.dropWhile p

/-- Drop trailing characters satisfying p. -/
def stripTrailing (p : Char → Bool) (s : List Char) : List Char := (s.reverse.dropWhile p).reverse

/-- Python str.strip(set): remove leading and trailing characters in the set. -/
def stripBoth (p : Char → Bool) (s : List Char) : List Char := stripTrailing p (stripLeading p s)

/-- Python s.strip() with no argument. -/
def pyStripWs (s : List Char) : List Char := stripBoth isPyWs s

/-- The character set of the Python strip("\x7b\x7d ") call in placeholder
normalization: open brace, close brace, space. -/
def isBraceSpace (c : Char) : Bool := (c == '{') || (c == '}') || (c == ' ')

/-- Python s.lower() (ASCII fragment, matching the literals compared against). -/
def pyLower (s : List Char) : List Char := s.map Char.toLower

/-- Prepend a character to the first chunk of a split result. -/
def consHead (c : Char) : List (List Char) → List (List Char)
  | [] => [[c]]
  | p :: ps => (c :: p) :: ps

/-- Fuel-driven worker for splitOnL; structural recursion on the fuel so the
function reduces definitionally.  For fuel at least s.length and a non-empty
separator it computes Python text.split(sep). -/
def splitOnF (sep : List Char) : ℕ → List Char → List (List Char)
  | _, [] => [[]]
  | 0, s => [s]
  | (fuel + 1), c :: rest =>
    if sep <+: (c :: rest) then [] :: splitOnF sep fuel ((c :: rest).drop sep.length)
    else consHead c (splitOnF sep fuel rest)

/-- Python text.split(sep) for a non-empty separator: cut at the leftmost,
non-overlapping occurrences of sep.  (For sep = [] Python raises; the code
never splits on an empty separator.) -/
def splitOnL (sep : List Char) (s : List Char) : List (List Char) :=
  splitOnF sep s.length s

/-- Python text.count(sub) for non-empty sub: the number of non-overlapping
occurrences found scanning left to right. -/
def countOcc (sep s : List Char) : ℕ := (splitOnL sep s).length - 1

/-- Python glue.join(parts). -/
def joinSep (glue : List Char) : List (List Char) → List Char
  | [] => []
  | [p] => p
  | p :: ps => p ++ glue ++ joinSep glue ps

/-- Fuel-driven worker for replaceL; structural recursion on the fuel. -/
def replaceF (sep repl : List Char) : ℕ → List Char → List Char
  | _, [] => []
  | 0, s => s
  | (fuel + 1), c :: rest =>
    if sep <+: (c :: rest) then repl ++ replaceF sep repl fuel ((c :: rest).drop sep.length)
    else c :: replaceF sep repl fuel rest

/-- Python s.replace(sep, repl) for non-empty sep: replace every
non-overlapping occurrence, scanning left to right, never rescanning the
replacement text itself. -/
def replaceL (sep repl : List Char) (s : List Char) : List Char :=
  replaceF sep repl s.length s

/-- The default placeholder list element, Python "\x7bname\x7d". -/
def defaultPh : List Char := ['{', 'n', 'a', 'm', 'e', '}']

/-- raw_placeholders of generate_with_openrouter_via_client: split the raw
placeholders string on commas, strip whitespace, drop empties, default to
["\x7bname\x7d"] (src/app/main.py lines 123-125, src/backend/main.py 115-117). -/
def rawPlaceholders (raw : List Char) : List (List Char) :=
  let pieces := ((splitOnL [','] raw).map pyStripWs).filter (fun p => p ≠ [])
  if pieces = [] then [defaultPh] else pieces

/-- One step of placeholder normalization: keep ph if it starts with an open
brace and ends with a close brace, else strip "\x7b\x7d " from both ends and
wrap in braces (src/app/main.py line 128, src/backend/main.py line 120). -/
def normalizeOne (ph : List Char) : List Char :=
  if ['{'] <+: ph ∧ ['}'] <:+ ph then ph
  else '{' :: (stripBoth isBraceSpace ph ++ ['}'])

/-- The dedup-preserving-order loop building norm_placeholders
(src/app/main.py lines 126-130, src/backend/main.py lines 118-122). -/
def dedupAppend (acc : List (List Char)) : List (List Char) → List (List Char)
  | [] => acc
  | ph :: rest =>
    if normalizeOne ph ∈ acc then dedupAppend acc rest
    else dedupAppend (acc ++ [normalizeOne ph]) rest

/-- norm_placeholders as computed from the raw comma-separated string. -/
def normalizePlaceholders (raw : List Char) : List (List Char) :=
  dedupAppend [] (rawPlaceholders raw)

/-- Per-placeholder enforcement step of the post-processing loop
(src/app/main.py lines 246-252, src/backend/main.py lines 218-223):
if ph not in text, prepend "Hello \x7bph\x7d, "; elif text.count(ph) > 1,
text = parts[0] + ph + " ".join(parts[1:]).replace(ph, "").  (The source
tests absence first; the branches below are the same three cases.) -/
def enforceOne (t ph : List Char) : List Char :=
  if ph <:+: t then
    if 1 < countOcc ph t then
      match splitOnL ph t with
      | [] => t
      | p :: ps => p ++ ph ++ replaceL ph [] (joinSep [' '] ps)
    else t
  else "Hello ".toList ++ ph ++ ", ".toList ++ t

/-- The whole post-processing pass: for ph in norm_placeholders, apply the
enforcement step. -/
def postProcess (norm : List (List Char)) (text : List Char) : List Char :=
  norm.foldl enforceOne text

/-- sentence_rule selection (src/app/main.py lines 133-138,
src/backend/main.py lines 124-129): medium and long are tested explicitly,
everything else falls to the final else branch. -/
def sentence_rule (length : List Char) : List Char :=
  if length = "medium".toList then "Write 4 to 5 complete sentences.".toList
  else if length = "long".toList then "Write 7 to 9 complete sentences.".toList
  else "Write 1 to 2 concise sentences.".toList

/-- The wait computed by _ensure_min_interval_between_calls
(src/app/main.py lines 104-111, src/backend/main.py lines 101-108):
wait_for = (last + I) - now, slept only when positive. -/
def gateSleep (I last now : ℚ) : ℚ :=
  if 0 < last + I - now then last + I - now else 0

/-- Rate-limit classification of a stringified exception
(src/app/main.py line 291, src/backend/main.py line 229). -/
def isRateLimitedStr (s : List Char) : Prop :=
  "429".toList <:+: s ∨ "rate-limit".toList <:+: pyLower s ∨
    "rate limited".toList <:+: pyLower s ∨ "temporarily rate-limited".toList <:+: pyLower s

instance (s : List Char) : Decidable (isRateLimitedStr s) := by
  unfold isRateLimitedStr; infer_instance

/-- Auth classification of a stringified exception
(src/app/main.py line 294, src/backend/main.py line 230). -/
def isAuthStr (s : List Char) : Prop :=
  "401".toList <:+: s ∨ "403".toList <:+: s ∨
    "User not found".toList <:+: s ∨ "invalid".toList <:+: pyLower s

instance (s : List Char) : Decidable (isAuthStr s) := by
  unfold isAuthStr; infer_instance

/-- Python s.replace(".", "", 1): remove the first dot, if any. -/
def removeFirstDot : List Char → List Char
  | [] => []
  | c :: r => if c = '.' then r else c :: removeFirstDot r

/-- The Retry-After validity test of src/app/main.py line 310: the header is
truthy and str(it).replace(".", "", 1).isdigit().  Python isdigit() is false
on the empty string, hence the second non-emptiness conjunct. -/
def validRetryAfter (s : List Char) : Prop :=
  s ≠ [] ∧ removeFirstDot s ≠ [] ∧ (removeFirstDot s).all Char.isDigit = true

instance (s : List Char) : Decidable (validRetryAfter s) := by
  unfold validRetryAfter; infer_instance

/-- Numeric value of a digit string. -/
def digitsToNat (ds : List Char) : ℕ := ds.foldl (fun n c => 10 * n + (c.toNat - '0'.toNat)) 0

/-- Python float(s) for strings passing validRetryAfter: digits with at most
one dot. -/
def parseRetryAfter (s : List Char) : ℚ :=
  match splitOnL ['.'] s with
  | [i] => (digitsToNat i : ℚ)
  | [i, f] => (digitsToNat i : ℚ) + (digitsToNat f : ℚ) / ((10 ^ f.length : ℕ) : ℚ)
  | _ => 0

/-- The degrade step req["max_tokens"] = max(int(current * 0.7), 40), where
current = req max_tokens unless falsy (0), else the function's max_tokens
argument (src/app/main.py lines 271-273; same expression at 233-235 and
319-321, src/backend/main.py 210-211 and 236-237).  int(x * 0.7) is modeled
as floor division. -/
def scaleTokens (mtArg mt : ℕ) : ℕ := max (7 * (if mt = 0 then mtArg else mt) / 10) 40

/-- req["temperature"] = max(0.3, temperature - 0.05). -/
def scaleTemp (temp : ℚ) : ℚ := max (3 / 10 : ℚ) (temp - 1 / 20)

/-- base_delay + jitter with backoff_base = 1.0: base_delay = 2 ^ (attempt - 1),
jitter = random.uniform(0, 0.4 * base_delay) modeled as an arbitrary function
of the attempt number (src/app/main.py lines 279-281 and 313-315,
src/backend/main.py lines 207-209 and 233-235). -/
def backoffDelay (jitter : ℕ → ℚ) (attempt : ℕ) : ℚ :=
  ((2 ^ (attempt - 1) : ℕ) : ℚ) + jitter attempt

/-- simple_req["max_tokens"] = max(80, min(200, req max_tokens or 180))
(src/app/main.py line 209, src/backend/main.py line 191). -/
def fbTokens (mt : ℕ) : ℕ := max 80 (min 200 (if mt = 0 then 180 else mt))

/-- One upstream interaction as observed through the client call: a response
whose (stripped) content we read, an asyncio.wait_for timeout, or a raised
exception carrying its str() text and the optional Retry-After header of its
response attribute. -/
inductive Outcome where
  | ok (content : List Char)
  | timeout
  | err (msg : List Char) (retryAfter : Option (List Char))
deriving DecidableEq

/-- Record of one upstream call: the primary payload carries the current req
max_tokens/temperature; the simplified fallback payload carries its own
conservative token budget and the fresh env temperature. -/
inductive CallRec where
  | primary (maxTokens : ℕ) (temp : ℚ)
  | fallback (maxTokens : ℕ) (temp : ℚ)
deriving DecidableEq

/-- Outcome of one orchestration call.  httpError models the HTTPException
raised past the loop; loopEnded models src/backend/main.py falling off the
end of its for loop (implicit None; unreachable). -/
inductive OrchResult where
  | success (text : List Char)
  | httpError (code : ℕ) (detail : List Char)
  | loopEnded
deriving DecidableEq

/-- Trace of one orchestration call: the upstream calls issued in order, the
sleeps performed in order, and the final outcome. -/
structure OTrace where
  calls : List CallRec
  sleeps : List ℚ
  result : OrchResult
deriving DecidableEq

def timeoutMsg : List Char := "OpenRouter timeout".toList

def emptyMsg : List Char := "OpenRouter returned empty text".toList

def authMsg (s : List Char) : List Char := "OpenRouter auth error: ".toList ++ s

def genErrMsg (s : List Char) : List Char := "OpenRouter error: ".toList ++ s

def finalMsg : List Char := "OpenRouter error (final): ".toList

/-- Decision taken by an except-Exception handler. -/
inductive ErrDecision where
  | authStop
  | retryAfterSleep (delay : ℚ)
  | stop
deriving DecidableEq

/-- The generic exception handler of src/app/main.py lines 287-334: auth
substrings short-circuit; a rate-limited error with attempts remaining sleeps
the Retry-After duration when the header passes the numeric test, else the
backoff delay; everything else stops with the generic error. -/
def appClassify (jitter : ℕ → ℚ) (attempt : ℕ) (s : List Char)
    (ra : Option (List Char)) : ErrDecision :=
  if isAuthStr s then .authStop
  else if isRateLimitedStr s ∧ attempt < 4 then
    .retryAfterSleep
      (match ra with
       | some rs => if validRetryAfter rs then parseRetryAfter rs else backoffDelay jitter attempt
       | none => backoffDelay jitter attempt)
  else .stop

/-- The generic exception handler of src/backend/main.py lines 227-242: same
classification, but the Retry-After header is never consulted. -/
def backendClassify (jitter : ℕ → ℚ) (attempt : ℕ) (s : List Char) : ErrDecision :=
  if isAuthStr s then .authStop
  else if isRateLimitedStr s ∧ attempt < 4 then .retryAfterSleep (backoffDelay jitter attempt)
  else .stop

/-- The attempt loop of generate_with_openrouter_via_client, src/app/main.py
lines 175-337.  fuel is the number of loop iterations left (the loop runs
range(1, 5)); attempt is the 1-based attempt counter; ci indexes the script
of upstream outcomes stub; mt and temp are the mutable req fields
max_tokens/temperature; mtArg is the function's max_tokens argument (used by
the Python or in the degrade step); temp0 is the env temperature used by the
simplified fallback request.  The prompt payload text is not modeled: it
never influences control flow. -/
def appOrchAux (stub : ℕ → Outcome) (jitter : ℕ → ℚ) (norm : List (List Char))
    (mtArg : ℕ) (temp0 : ℚ) :
    ℕ → ℕ → ℕ → ℕ → ℚ → OTrace
  | 0, _, _, _, _ => ⟨[], [], .httpError 502 finalMsg⟩
  | (fuel + 1), attempt, ci, mt, temp =>
    match stub ci with
    | .timeout =>
      -- except asyncio.TimeoutError, lines 267-286: scale down; retry if attempts remain
      if attempt < 4 then
        let r := appOrchAux stub jitter norm mtArg temp0 fuel (attempt + 1) (ci + 1)
          (scaleTokens mtArg mt) (scaleTemp temp)
        ⟨.primary mt temp :: r.calls, backoffDelay jitter attempt :: r.sleeps, r.result⟩
      else ⟨[.primary mt temp], [], .httpError 504 timeoutMsg⟩
    | .err s ra =>
      -- except Exception, lines 287-334
      match appClassify jitter attempt s ra with
      | .authStop => ⟨[.primary mt temp], [], .httpError 502 (authMsg s)⟩
      | .retryAfterSleep d =>
        let r := appOrchAux stub jitter norm mtArg temp0 fuel (attempt + 1) (ci + 1)
          (scaleTokens mtArg mt) (scaleTemp temp)
        ⟨.primary mt temp :: r.calls, d :: r.sleeps, r.result⟩
      | .stop => ⟨[.primary mt temp], [], .httpError 502 (genErrMsg s)⟩
    | .ok content =>
      let text := pyStripWs content
      if text ≠ [] then
        -- non-empty primary completion: post-process and return, lines 246-265
        ⟨[.primary mt temp], [], .success (postProcess norm text)⟩
      else
        -- empty text: issue the simplified fallback request, lines 196-244
        match stub (ci + 1) with
        | .ok c2 =>
          let t2 := pyStripWs c2
          if t2 ≠ [] then
            ⟨[.primary mt temp, .fallback (fbTokens mt) temp0], [],
              .success (postProcess norm t2)⟩
          else if attempt < 4 then
            let r := appOrchAux stub jitter norm mtArg temp0 fuel (attempt + 1) (ci + 2)
              (scaleTokens mtArg mt) (scaleTemp temp)
            ⟨.primary mt temp :: .fallback (fbTokens mt) temp0 :: r.calls,
              backoffDelay jitter attempt :: r.sleeps, r.result⟩
          else
            ⟨[.primary mt temp, .fallback (fbTokens mt) temp0], [], .httpError 502 emptyMsg⟩
        | .timeout =>
          if attempt < 4 then
            let r := appOrchAux stub jitter norm mtArg temp0 fuel (attempt + 1) (ci + 2)
              (scaleTokens mtArg mt) (scaleTemp temp)
            ⟨.primary mt temp :: .fallback (fbTokens mt) temp0 :: r.calls,
              backoffDelay jitter attempt :: r.sleeps, r.result⟩
          else ⟨[.primary mt temp, .fallback (fbTokens mt) temp0], [], .httpError 504 timeoutMsg⟩
        | .err s ra =>
          match appClassify jitter attempt s ra with
          | .authStop =>
            ⟨[.primary mt temp, .fallback (fbTokens mt) temp0], [], .httpError 502 (authMsg s)⟩
          | .retryAfterSleep d =>
            let r := appOrchAux stub jitter norm mtArg temp0 fuel (attempt + 1) (ci + 2)
              (scaleTokens mtArg mt) (scaleTemp temp)
            ⟨.primary mt temp :: .fallback (fbTokens mt) temp0 :: r.calls,
              d :: r.sleeps, r.result⟩
          | .stop =>
            ⟨[.primary mt temp, .fallback (fbTokens mt) temp0], [], .httpError 502 (genErrMsg s)⟩

/-- generate_with_openrouter_via_client of src/app/main.py (lines 113-337)
with the client initialized.  cap models DEEPSEEK_MAX_TOKENS, temp0 models
float(os.getenv("DEEPSEEK_TEMPERATURE", "0.6")); the initial req max_tokens
is min(max_tokens, DEEPSEEK_MAX_TOKENS) (line 161). -/
def appOrchestrate (stub : ℕ → Outcome) (jitter : ℕ → ℚ) (raw : List Char)
    (cap mtArg : ℕ) (temp0 : ℚ) : OTrace :=
  appOrchAux stub jitter (normalizePlaceholders raw) mtArg temp0 4 1 0 (min mtArg cap) temp0

/-- The attempt loop of generate_with_openrouter_via_client, src/backend/main.py
lines 167-242.  Identical to the app loop except: there is no
asyncio.TimeoutError handler, so a timeout is caught by the generic except
with str(e) = "" (classified non-retryable), and the Retry-After header is
never consulted. -/
def backendOrchAux (stub : ℕ → Outcome) (jitter : ℕ → ℚ) (norm : List (List Char))
    (mtArg : ℕ) (temp0 : ℚ) :
    ℕ → ℕ → ℕ → ℕ → ℚ → OTrace
  | 0, _, _, _, _ => ⟨[], [], .loopEnded⟩
  | (fuel + 1), attempt, ci, mt, temp =>
    match stub ci with
    | .timeout =>
      -- no timeout handler: except Exception catches it, str(e) = ""
      match backendClassify jitter attempt [] with
      | .authStop => ⟨[.primary mt temp], [], .httpError 502 (authMsg [])⟩
      | .retryAfterSleep d =>
        let r := backendOrchAux stub jitter norm mtArg temp0 fuel (attempt + 1) (ci + 1)
          (scaleTokens mtArg mt) (scaleTemp temp)
        ⟨.primary mt temp :: r.calls, d :: r.sleeps, r.result⟩
      | .stop => ⟨[.primary mt temp], [], .httpError 502 (genErrMsg [])⟩
    | .err s ra =>
      match backendClassify jitter attempt s with
      | .authStop => ⟨[.primary mt temp], [], .httpError 502 (authMsg s)⟩
      | .retryAfterSleep d =>
        let r := backendOrchAux stub jitter norm mtArg temp0 fuel (attempt + 1) (ci + 1)
          (scaleTokens mtArg mt) (scaleTemp temp)
        ⟨.primary mt temp :: r.calls, d :: r.sleeps, r.result⟩
      | .stop => ⟨[.primary mt temp], [], .httpError 502 (genErrMsg s)⟩
    | .ok content =>
      let text := pyStripWs content
      if text ≠ [] then
        ⟨[.primary mt temp], [], .success (postProcess norm text)⟩
      else
        match stub (ci + 1) with
        | .ok c2 =>
          let t2 := pyStripWs c2
          if t2 ≠ [] then
            ⟨[.primary mt temp, .fallback (fbTokens mt) temp0], [],
              .success (postProcess norm t2)⟩
          else if attempt < 4 then
            let r := backendOrchAux stub jitter norm mtArg temp0 fuel (attempt + 1) (ci + 2)
              (scaleTokens mtArg mt) (scaleTemp temp)
            ⟨.primary mt temp :: .fallback (fbTokens mt) temp0 :: r.calls,
              backoffDelay jitter attempt :: r.sleeps, r.result⟩
          else
            ⟨[.primary mt temp, .fallback (fbTokens mt) temp0], [], .httpError 502 emptyMsg⟩
        | .timeout =>
          match backendClassify jitter attempt [] with
          | .authStop =>
            ⟨[.primary mt temp, .fallback (fbTokens mt) temp0], [], .httpError 502 (authMsg [])⟩
          | .retryAfterSleep d =>
            let r := backendOrchAux stub jitter norm mtArg temp0 fuel (attempt + 1) (ci + 2)
              (scaleTokens mtArg mt) (scaleTemp temp)
            ⟨.primary mt temp :: .fallback (fbTokens mt) temp0 :: r.calls,
              d :: r.sleeps, r.result⟩
          | .stop =>
            ⟨[.primary mt temp, .fallback (fbTokens mt) temp0], [], .httpError 502 (genErrMsg [])⟩
        | .err s ra =>
          match backendClassify jitter attempt s with
          | .authStop =>
            ⟨[.primary mt temp, .fallback (fbTokens mt) temp0], [], .httpError 502 (authMsg s)⟩
          | .retryAfterSleep d =>
            let r := backendOrchAux stub jitter norm mtArg temp0 fuel (attempt + 1) (ci + 2)
              (scaleTokens mtArg mt) (scaleTemp temp)
            ⟨.primary mt temp :: .fallback (fbTokens mt) temp0 :: r.calls,
              d :: r.sleeps, r.result⟩
          | .stop =>
            ⟨[.primary mt temp, .fallback (fbTokens mt) temp0], [], .httpError 502 (genErrMsg s)⟩

/-- generate_with_openrouter_via_client of src/backend/main.py (lines 110-242). -/
def backendOrchestrate (stub : ℕ → Outcome) (jitter : ℕ → ℚ) (raw : List Char)
    (cap mtArg : ℕ) (temp0 : ℚ) : OTrace :=
  backendOrchAux stub jitter (normalizePlaceholders raw) mtArg temp0 4 1 0 (min mtArg cap) temp0

/-- Python or-chaining over optional strings: an empty string is falsy. -/
def orElseStr (a b : Option (List Char)) : Option (List Char) :=
  match a with
  | some s => if s = [] then b else some s
  | none => b

def openrouterUrl : List Char := "https://openrouter.ai/api/v1".toList

def openrouterModel0 : List Char := "deepseek/deepseek-r1-0528".toList

def deepseekUrl0 : List Char := "https://api.deepseek.com".toList

def deepseekModel0 : List Char := "deepseek-reasoner".toList

def orKeyMarker : List Char := "sk-or-v1-".toList

/-- The connection details dict returned by resolve_connection_details. -/
structure ConnDetails where
  api_key : List Char
  base_url : List Char
  model : List Char
  temperature : ℚ
  max_tokens : Option ℕ
  is_openrouter : Bool
deriving DecidableEq

/-- Failures of resolve_connection_details: the explicit RuntimeError when no
key is found, and the ValueError float() raises on a malformed
DEEPSEEK_TEMPERATURE. -/
inductive ResolveErr where
  | missingKey
  | badTemperature
deriving DecidableEq

/-- Unsigned decimal forms accepted by our pyFloat model. -/
def pyFloatUnsigned (u : List Char) : Option ℚ :=
  match splitOnL ['.'] u with
  | [i] => if i ≠ [] ∧ i.all Char.isDigit then some ((digitsToNat i : ℚ)) else none
  | [i, f] =>
    if (i ≠ [] ∨ f ≠ []) ∧ i.all Char.isDigit ∧ f.all Char.isDigit then
      some ((digitsToNat i : ℚ) + (digitsToNat f : ℚ) / ((10 ^ f.length : ℕ) : ℚ))
    else none
  | _ => none

/-- Python float(s) restricted to the decimal forms this code feeds it:
optional sign, digits with at most one dot (exponents, inf and nan are not
modeled).  none models the ValueError raised on malformed input. -/
def pyFloat (s : List Char) : Option ℚ :=
  match pyStripWs s with
  | '+' :: u => pyFloatUnsigned u
  | '-' :: u => (pyFloatUnsigned u).map (fun q => -q)
  | u => pyFloatUnsigned u

/-- Python int(s): optional sign and a non-empty digit string, surrounded by
optional whitespace (underscore digit grouping is not modeled).  none models
the ValueError raised on malformed input. -/
def pyInt (s : List Char) : Option ℤ :=
  match pyStripWs s with
  | '+' :: ds => if ds ≠ [] ∧ ds.all Char.isDigit then some (digitsToNat ds : ℤ) else none
  | '-' :: ds => if ds ≠ [] ∧ ds.all Char.isDigit then some (-(digitsToNat ds : ℤ)) else none
  | ds => if ds ≠ [] ∧ ds.all Char.isDigit then some (digitsToNat ds : ℤ) else none

/-- resolve_connection_details of
src/app/backend/test/test_deepseek_connection.py lines 48-78.  env is the
process environment as a partial map. -/
def resolve_connection_details (env : List Char → Option (List Char))
    (explicit : Option (List Char)) : Except ResolveErr ConnDetails :=
  match orElseStr explicit
      (orElseStr (env "DEEPSEEK_API_KEY".toList) (env "DEFAULT_DEEPSEEK_API_KEY".toList)) with
  | none => .error .missingKey
  | some k =>
    if k = [] then .error .missingKey
    else
      let base_url :=
        if orKeyMarker <+: k then openrouterUrl
        else (env "DEEPSEEK_BASE_URL".toList).getD deepseekUrl0
      let default_model := if orKeyMarker <+: k then openrouterModel0 else deepseekModel0
      let model := (env "DEEPSEEK_MODEL".toList).getD default_model
      match pyFloat ((env "DEEPSEEK_TEMPERATURE".toList).getD ("0.7".toList)) with
      | none => .error .badTemperature
      | some temp =>
        let mts := pyStripWs ((env "DEEPSEEK_MAX_TOKENS".toList).getD [])
        let max_tokens :=
          if mts ≠ [] ∧ mts.all Char.isDigit = true ∧ 0 < digitsToNat mts then
            some (digitsToNat mts)
          else none
        .ok ⟨k, base_url, model, temp, max_tokens, decide (orKeyMarker <+: k)⟩

/-- DEEPSEEK_MAX_TOKENS = int(os.getenv("DEEPSEEK_MAX_TOKENS", "2500"))
(src/app/main.py line 31, src/backend/main.py line 37): the default string
applies only when the variable is absent; whatever string results is then fed
to int(). -/
def deepseekMaxTokens (env : List Char → Option (List Char)) : Option ℤ :=
  pyInt ((env "DEEPSEEK_MAX_TOKENS".toList).getD ("2500".toList))

/-- Proof device for the leftmost-split lemmas: no suffix of A, extended by
sep itself, starts with sep; equivalently no occurrence of sep starts inside
A when A is followed by sep. -/
def noEarly (sep : List Char) : List Char → Prop
  | [] => True
  | c :: A => ¬ sep <+: ((c :: A) ++ sep) ∧ noEarly sep A

/-- Shape invariant of normalized placeholders: non-empty, brace-wrapped,
comma-free. -/
def phWf (p : List Char) : Prop :=
  p ≠ [] ∧ ['{'] <+: p ∧ ['}'] <:+ p ∧ ',' ∉ p

/-!
Theorems.
-/

/-- C8: for every minIntervalSeconds I, two consecutive RateGate acquires are
at least I apart.  The first acquire stores its post-sleep clock reading r1 in
_last_call_ts.  The second acquire reads the clock at t2, computes
wait = r1 + I - t2, sleeps it when positive (gateSleep), reads the clock again
at r2 (so t2 + gateSleep I r1 t2 ≤ r2, since the monotonic clock advances at
least by the slept duration) and stores r2.  The two release instants r1 and
r2 then satisfy I ≤ r2 - r1. -/
theorem rate_gate_min_interval (I r1 t2 r2 : ℚ)
    (hclock : t2 + gateSleep I r1 t2 ≤ r2) : I ≤ r2 - r1 := by
  unfold gateSleep at hclock
  split at hclock <;> linarith

theorem rate_gate_min_interval_witness :
    ((1 : ℚ) + gateSleep 2 0 1 ≤ 2) ∧ ((2 : ℚ) ≤ 2 - 0) :=
  ⟨by norm_num [gateSleep], rate_gate_min_interval 2 0 1 2 (by norm_num [gateSleep])⟩

/-- C4: if the first upstream call raises an auth-classified exception, both
orchestrators stop immediately with the auth error: exactly one upstream call
is recorded, no sleep happens, and the result is the 502 auth HTTPException. -/
theorem auth_error_short_circuit (stub : ℕ → Outcome) (jitter : ℕ → ℚ) (raw : List Char)
    (cap mtArg : ℕ) (temp0 : ℚ) (s : List Char) (ra : Option (List Char))
    (hstub : stub 0 = Outcome.err s ra) (hauth : isAuthStr s) :
    appOrchestrate stub jitter raw cap mtArg temp0 =
      ⟨[CallRec.primary (min mtArg cap) temp0], [], OrchResult.httpError 502 (authMsg s)⟩ ∧
    backendOrchestrate stub jitter raw cap mtArg temp0 =
      ⟨[CallRec.primary (min mtArg cap) temp0], [], OrchResult.httpError 502 (authMsg s)⟩ := by
  constructor
  · rw [appOrchestrate]
    show appOrchAux stub jitter (normalizePlaceholders raw) mtArg temp0 (3 + 1)
      1 0 (min mtArg cap) temp0 = _
    simp only [appOrchAux, hstub, appClassify, if_pos hauth]
  · rw [backendOrchestrate]
    show backendOrchAux stub jitter (normalizePlaceholders raw) mtArg temp0 (3 + 1)
      1 0 (min mtArg cap) temp0 = _
    simp only [backendOrchAux, hstub, backendClassify, if_pos hauth]

theorem auth_error_short_circuit_witness :
    ((fun (_ : ℕ) => Outcome.err ("Error code: 401 - User not found".toList) none) 0 =
        Outcome.err ("Error code: 401 - User not found".toList) none) ∧
    isAuthStr ("Error code: 401 - User not found".toList) ∧
    appOrchestrate (fun _ => Outcome.err ("Error code: 401 - User not found".toList) none)
        (fun _ => 0) [] 2500 600 (6 / 10) =
      ⟨[CallRec.primary (min 600 2500) (6 / 10)], [],
        OrchResult.httpError 502 (authMsg ("Error code: 401 - User not found".toList))⟩ :=
  ⟨rfl, by decide,
    (auth_error_short_circuit _ (fun _ => 0) [] 2500 600 (6 / 10) _ none rfl (by decide)).1⟩

/-- C10: the auth check precedes the rate-limit check and works by substring
matching on the stringified exception: whenever the text contains 401, 403,
User not found, or case-insensitively invalid (isAuthStr), both orchestrators
stop at once with the auth error on any attempt, with no sleep and no further
upstream call, even if the text is also rate-limit classified. -/
theorem auth_classification_precedence (stub : ℕ → Outcome) (jitter : ℕ → ℚ)
    (norm : List (List Char)) (mtArg : ℕ) (temp0 : ℚ) (fuel attempt ci mt : ℕ) (temp : ℚ)
    (s : List Char) (ra : Option (List Char))
    (hstub : stub ci = Outcome.err s ra)
    (hauth : "401".toList <:+: s ∨ "403".toList <:+: s ∨
      "User not found".toList <:+: s ∨ "invalid".toList <:+: pyLower s) :
    appOrchAux stub jitter norm mtArg temp0 (fuel + 1) attempt ci mt temp =
      ⟨[CallRec.primary mt temp], [], OrchResult.httpError 502 (authMsg s)⟩ ∧
    backendOrchAux stub jitter norm mtArg temp0 (fuel + 1) attempt ci mt temp =
      ⟨[CallRec.primary mt temp], [], OrchResult.httpError 502 (authMsg s)⟩ := by
  have hauth' : isAuthStr s := hauth
  constructor
  · simp only [appOrchAux, hstub, appClassify, if_pos hauth']
  · simp only [backendOrchAux, hstub, backendClassify, if_pos hauth']

theorem auth_classification_precedence_witness :
    ((fun (_ : ℕ) => Outcome.err ("429 invalid key".toList) none) 2 =
        Outcome.err ("429 invalid key".toList) none) ∧
    ("invalid".toList <:+: pyLower ("429 invalid key".toList)) ∧
    isRateLimitedStr ("429 invalid key".toList) ∧
    appOrchAux (fun _ => Outcome.err ("429 invalid key".toList) none) (fun _ => 0) [] 600
        (6 / 10) (1 + 1) 3 2 420 (11 / 20) =
      ⟨[CallRec.primary 420 (11 / 20)], [],
        OrchResult.httpError 502 (authMsg ("429 invalid key".toList))⟩ :=
  ⟨rfl, by decide, by decide,
    (auth_classification_precedence _ (fun _ => 0) [] 600 (6 / 10) 1 3 2 420 (11 / 20) _ none
      rfl (Or.inr (Or.inr (Or.inr (by decide))))).1⟩

/-- C2 (amended): with an upstream that times out on every call, the app
orchestrator (src/app/main.py) performs exactly 4 upstream calls, each timeout
scaling max_tokens by the degrade step (0.7 with floor 40) and lowering
temperature toward 0.3, sleeps the backoff delay between consecutive attempts,
and fails with the 504 UpstreamTimeout; it never makes a 5th call and never
succeeds.  The backend duplicate (src/backend/main.py) instead stops after
exactly 1 call with the generic 502 error, because it has no timeout handler. -/
theorem timeout_retry_budget :
    (∀ (stub : ℕ → Outcome) (jitter : ℕ → ℚ) (raw : List Char) (cap mtArg : ℕ) (temp0 : ℚ),
      (∀ i, stub i = Outcome.timeout) →
      appOrchestrate stub jitter raw cap mtArg temp0 =
        ⟨[CallRec.primary (min mtArg cap) temp0,
          CallRec.primary (scaleTokens mtArg (min mtArg cap)) (scaleTemp temp0),
          CallRec.primary (scaleTokens mtArg (scaleTokens mtArg (min mtArg cap)))
            (scaleTemp (scaleTemp temp0)),
          CallRec.primary
            (scaleTokens mtArg (scaleTokens mtArg (scaleTokens mtArg (min mtArg cap))))
            (scaleTemp (scaleTemp (scaleTemp temp0)))],
         [backoffDelay jitter 1, backoffDelay jitter 2, backoffDelay jitter 3],
         OrchResult.httpError 504 timeoutMsg⟩) ∧
    (∀ (stub : ℕ → Outcome) (jitter : ℕ → ℚ) (raw : List Char) (cap mtArg : ℕ) (temp0 : ℚ),
      (∀ i, stub i = Outcome.timeout) →
      backendOrchestrate stub jitter raw cap mtArg temp0 =
        ⟨[CallRec.primary (min mtArg cap) temp0], [],
          OrchResult.httpError 502 (genErrMsg [])⟩) := by
  constructor
  · intro stub jitter raw cap mtArg temp0 hstub
    rw [appOrchestrate]
    show appOrchAux stub jitter (normalizePlaceholders raw) mtArg temp0 (0 + 1 + 1 + 1 + 1)
      1 0 (min mtArg cap) temp0 = _
    simp [appOrchAux, hstub]
  · intro stub jitter raw cap mtArg temp0 hstub
    rw [backendOrchestrate]
    show backendOrchAux stub jitter (normalizePlaceholders raw) mtArg temp0 (3 + 1)
      1 0 (min mtArg cap) temp0 = _
    have h1 : ¬ isAuthStr ([] : List Char) := by decide
    have h2 : ¬ isRateLimitedStr ([] : List Char) := by decide
    simp [backendOrchAux, hstub, backendClassify, h1, h2]

theorem timeout_retry_budget_witness :
    (∀ i : ℕ, (fun (_ : ℕ) => Outcome.timeout) i = Outcome.timeout) ∧
    appOrchestrate (fun _ => Outcome.timeout) (fun _ => 0) [] 2500 600 (6 / 10) =
      ⟨[CallRec.primary (min 600 2500) (6 / 10),
        CallRec.primary (scaleTokens 600 (min 600 2500)) (scaleTemp (6 / 10)),
        CallRec.primary (scaleTokens 600 (scaleTokens 600 (min 600 2500)))
          (scaleTemp (scaleTemp (6 / 10))),
        CallRec.primary (scaleTokens 600 (scaleTokens 600 (scaleTokens 600 (min 600 2500))))
          (scaleTemp (scaleTemp (scaleTemp (6 / 10))))],
       [backoffDelay (fun _ => 0) 1, backoffDelay (fun _ => 0) 2, backoffDelay (fun _ => 0) 3],
       OrchResult.httpError 504 timeoutMsg⟩ :=
  ⟨fun _ => rfl,
    timeout_retry_budget.1 (fun _ => Outcome.timeout) (fun _ => 0) [] 2500 600 (6 / 10)
      (fun _ => rfl)⟩

/-- C2 counterexample: the claim says the orchestrator (citing both backends)
makes exactly 4 attempts and fails with the timeout class.  The
src/backend/main.py orchestrator, on an always-timing-out upstream, makes
exactly 1 upstream call and fails with the generic 502 error, not the 504
timeout. -/
theorem backend_timeout_no_retry_counterexample :
    (backendOrchestrate (fun _ => Outcome.timeout) (fun _ => 0) [] 2500 600 (6 / 10)).calls.length
        = 1 ∧
    (backendOrchestrate (fun _ => Outcome.timeout) (fun _ => 0) [] 2500 600 (6 / 10)).result =
      OrchResult.httpError 502 (genErrMsg []) ∧
    (backendOrchestrate (fun _ => Outcome.timeout) (fun _ => 0) [] 2500 600 (6 / 10)).result ≠
      OrchResult.httpError 504 timeoutMsg := by
  refine ⟨rfl, rfl, ?_⟩
  decide

/-- C3 (amended): in the app orchestrator, when an attempt raises a
rate-limit-classified (and not auth-classified) exception while attempts
remain, the sleep before the next attempt is exactly float(Retry-After)
whenever the header is present and passes the numeric test, and is the
backoff delay base * 2 ^ (attempt - 1) + jitter whenever the header is absent
(the backend duplicate never reads the header). -/
theorem app_retry_after_sleep :
    (∀ (stub : ℕ → Outcome) (jitter : ℕ → ℚ) (norm : List (List Char)) (mtArg : ℕ)
        (temp0 : ℚ) (fuel attempt ci mt : ℕ) (temp : ℚ) (s rs : List Char),
      stub ci = Outcome.err s (some rs) → ¬ isAuthStr s → isRateLimitedStr s → attempt < 4 →
      validRetryAfter rs →
      appOrchAux stub jitter norm mtArg temp0 (fuel + 1) attempt ci mt temp =
        ⟨CallRec.primary mt temp ::
            (appOrchAux stub jitter norm mtArg temp0 fuel (attempt + 1) (ci + 1)
              (scaleTokens mtArg mt) (scaleTemp temp)).calls,
          parseRetryAfter rs ::
            (appOrchAux stub jitter norm mtArg temp0 fuel (attempt + 1) (ci + 1)
              (scaleTokens mtArg mt) (scaleTemp temp)).sleeps,
          (appOrchAux stub jitter norm mtArg temp0 fuel (attempt + 1) (ci + 1)
            (scaleTokens mtArg mt) (scaleTemp temp)).result⟩) ∧
    (∀ (stub : ℕ → Outcome) (jitter : ℕ → ℚ) (norm : List (List Char)) (mtArg : ℕ)
        (temp0 : ℚ) (fuel attempt ci mt : ℕ) (temp : ℚ) (s : List Char),
      stub ci = Outcome.err s none → ¬ isAuthStr s → isRateLimitedStr s → attempt < 4 →
      appOrchAux stub jitter norm mtArg temp0 (fuel + 1) attempt ci mt temp =
        ⟨CallRec.primary mt temp ::
            (appOrchAux stub jitter norm mtArg temp0 fuel (attempt + 1) (ci + 1)
              (scaleTokens mtArg mt) (scaleTemp temp)).calls,
          backoffDelay jitter attempt ::
            (appOrchAux stub jitter norm mtArg temp0 fuel (attempt + 1) (ci + 1)
              (scaleTokens mtArg mt) (scaleTemp temp)).sleeps,
          (appOrchAux stub jitter norm mtArg temp0 fuel (attempt + 1) (ci + 1)
            (scaleTokens mtArg mt) (scaleTemp temp)).result⟩) := by
  constructor
  · intro stub jitter norm mtArg temp0 fuel attempt ci mt temp s rs hstub hna hrl hlt hva
    simp only [appOrchAux, hstub, appClassify, if_neg hna, if_pos (And.intro hrl hlt),
      if_pos hva]
  · intro stub jitter norm mtArg temp0 fuel attempt ci mt temp s hstub hna hrl hlt
    simp only [appOrchAux, hstub, appClassify, if_neg hna, if_pos (And.intro hrl hlt)]

theorem app_retry_after_sleep_witness :
    ((fun (i : ℕ) => if i = 0 then Outcome.err ("Error code: 429".toList) (some ("3".toList))
        else Outcome.timeout) 0 =
      Outcome.err ("Error code: 429".toList) (some ("3".toList))) ∧
    (¬ isAuthStr ("Error code: 429".toList)) ∧
    isRateLimitedStr ("Error code: 429".toList) ∧ (1 < 4) ∧
    validRetryAfter ("3".toList) ∧
    appOrchAux
        (fun i => if i = 0 then Outcome.err ("Error code: 429".toList) (some ("3".toList))
          else Outcome.timeout)
        (fun _ => 0) [] 600 (6 / 10) (2 + 1) 1 0 600 (6 / 10) =
      ⟨CallRec.primary 600 (6 / 10) ::
          (appOrchAux
            (fun i => if i = 0 then Outcome.err ("Error code: 429".toList) (some ("3".toList))
              else Outcome.timeout)
            (fun _ => 0) [] 600 (6 / 10) 2 2 1 (scaleTokens 600 600) (scaleTemp (6 / 10))).calls,
        parseRetryAfter ("3".toList) ::
          (appOrchAux
            (fun i => if i = 0 then Outcome.err ("Error code: 429".toList) (some ("3".toList))
              else Outcome.timeout)
            (fun _ => 0) [] 600 (6 / 10) 2 2 1 (scaleTokens 600 600) (scaleTemp (6 / 10))).sleeps,
        (appOrchAux
          (fun i => if i = 0 then Outcome.err ("Error code: 429".toList) (some ("3".toList))
            else Outcome.timeout)
          (fun _ => 0) [] 600 (6 / 10) 2 2 1 (scaleTokens 600 600) (scaleTemp (6 / 10))).result⟩ :=
  ⟨rfl, by decide, by decide, by decide, by decide,
    app_retry_after_sleep.1 _ (fun _ => 0) [] 600 (6 / 10) 2 1 0 600 (6 / 10) _ _
      rfl (by decide) (by decide) (by decide) (by decide)⟩

/-- C3 counterexample: the claim (citing both backends) says a rate-limited
failure carrying Retry-After: 3 makes the orchestrator sleep exactly 3
seconds.  The src/backend/main.py orchestrator never reads the header: with
zero jitter it sleeps the backoff value 1, not 3. -/
theorem backend_retry_after_ignored_counterexample :
    (backendOrchestrate
        (fun i => if i = 0 then Outcome.err ("Error code: 429".toList) (some ("3".toList))
          else Outcome.timeout)
        (fun _ => 0) [] 2500 600 (6 / 10)).sleeps = [backoffDelay (fun _ => 0) 1] ∧
    backoffDelay (fun _ => 0) 1 = 1 ∧
    parseRetryAfter ("3".toList) = 3 ∧ ((1 : ℚ) ≠ 3) := by
  refine ⟨rfl, by norm_num [backoffDelay], by decide, by decide⟩

/-- C5 counterexample: a length value outside the known set maps to the short
directive, not to medium's directive as the claim states. -/
theorem length_default_counterexample :
    sentence_rule ("unknown".toList) = "Write 1 to 2 concise sentences.".toList ∧
    sentence_rule ("unknown".toList) ≠ "Write 4 to 5 complete sentences.".toList := by
  refine ⟨rfl, by decide⟩

/-- C5 (amended): the prompt compiler maps medium to the 4-to-5-sentences
directive and long to the 7-to-9-sentences directive; short and every other
value (unknown or absent) fall to the else branch emitting the
1-to-2-sentences directive. -/
theorem length_directive_mapping :
    sentence_rule ("short".toList) = "Write 1 to 2 concise sentences.".toList ∧
    sentence_rule ("medium".toList) = "Write 4 to 5 complete sentences.".toList ∧
    sentence_rule ("long".toList) = "Write 7 to 9 complete sentences.".toList ∧
    (∀ l : List Char, l ≠ "medium".toList → l ≠ "long".toList →
      sentence_rule l = "Write 1 to 2 concise sentences.".toList) := by
  refine ⟨by decide, rfl, ?_, ?_⟩
  · rw [sentence_rule, if_neg (by decide), if_pos rfl]
  · intro l h1 h2
    rw [sentence_rule, if_neg h1, if_neg h2]

theorem length_directive_mapping_witness :
    ("banana".toList ≠ "medium".toList) ∧ ("banana".toList ≠ "long".toList) ∧
    sentence_rule ("banana".toList) = "Write 1 to 2 concise sentences.".toList :=
  ⟨by decide, by decide,
    length_directive_mapping.2.2.2 ("banana".toList) (by decide) (by decide)⟩

/-- C7 counterexample: with DEEPSEEK_MAX_TOKENS set to a malformed numeric
string, the int() call raises (modeled none) instead of falling back to the
documented default 2500. -/
theorem max_tokens_malformed_counterexample :
    deepseekMaxTokens
        (fun k => if k = "DEEPSEEK_MAX_TOKENS".toList then some ("abc".toList) else none) =
      none ∧
    (none : Option ℤ) ≠ some 2500 := by
  refine ⟨rfl, by decide⟩

/-- C7 (amended): the default 2500 applies only when DEEPSEEK_MAX_TOKENS is
absent from the environment; when the variable is set, its string goes
straight to int(), so a malformed string raises instead of defaulting. -/
theorem max_tokens_parse_behavior (env : List Char → Option (List Char)) :
    (env "DEEPSEEK_MAX_TOKENS".toList = none → deepseekMaxTokens env = some 2500) ∧
    (∀ s, env "DEEPSEEK_MAX_TOKENS".toList = some s → deepseekMaxTokens env = pyInt s) := by
  constructor
  · intro h
    rw [deepseekMaxTokens, h]
    rfl
  · intro s h
    rw [deepseekMaxTokens, h]
    rfl

/-- C6 counterexample: with credential sk-or-v1-abc and an explicit endpoint
override DEEPSEEK_BASE_URL = https://example.com in the environment,
resolution returns the hard-coded OpenRouter endpoint, not the override: the
override does not win for OpenRouter-shaped credentials. -/
theorem endpoint_override_ignored_counterexample :
    (resolve_connection_details
        (fun k => if k = "DEEPSEEK_BASE_URL".toList then some ("https://example.com".toList)
          else none)
        (some ("sk-or-v1-abc".toList))).toOption.map ConnDetails.base_url =
      some openrouterUrl ∧
    openrouterUrl ≠ "https://example.com".toList := by
  refine ⟨rfl, by decide⟩

/-- C6 (amended): every successful resolution selects endpoint and model by
credential shape: an sk-or-v1- prefixed credential yields the OpenRouter
endpoint and the OpenRouter default model (overridable by DEEPSEEK_MODEL
only); any other credential yields the direct-vendor endpoint, where the
DEEPSEEK_BASE_URL override applies, and the vendor default model.  The
endpoint override is consulted only in the non-OpenRouter branch. -/
theorem endpoint_selection_by_key_shape (env : List Char → Option (List Char))
    (explicit : Option (List Char)) (d : ConnDetails)
    (hres : resolve_connection_details env explicit = .ok d) :
    (orKeyMarker <+: d.api_key →
      d.base_url = openrouterUrl ∧
      d.model = (env "DEEPSEEK_MODEL".toList).getD openrouterModel0) ∧
    (¬ orKeyMarker <+: d.api_key →
      d.base_url = (env "DEEPSEEK_BASE_URL".toList).getD deepseekUrl0 ∧
      d.model = (env "DEEPSEEK_MODEL".toList).getD deepseekModel0) := by
  unfold resolve_connection_details at hres
  split at hres
  · exact absurd hres (by simp)
  · rename_i k hk
    split at hres
    · exact absurd hres (by simp)
    · rename_i hknil
      by_cases hpre : orKeyMarker <+: k
      · simp only [if_pos hpre] at hres
        split at hres
        · exact absurd hres (by simp)
        · rename_i temp htemp
          rw [Except.ok.injEq] at hres
          subst hres
          exact ⟨fun _ => ⟨rfl, rfl⟩, fun hn => absurd hpre hn⟩
      · simp only [if_neg hpre] at hres
        split at hres
        · exact absurd hres (by simp)
        · rename_i temp htemp
          rw [Except.ok.injEq] at hres
          subst hres
          exact ⟨fun hc => absurd hc hpre, fun _ => ⟨rfl, rfl⟩⟩

theorem endpoint_selection_by_key_shape_witness :
    resolve_connection_details (fun _ => none) (some ("sk-or-v1-abc".toList)) =
      Except.ok ⟨"sk-or-v1-abc".toList, openrouterUrl, openrouterModel0,
        (digitsToNat ['0'] : ℚ) + (digitsToNat ['7'] : ℚ) / ((10 ^ 1 : ℕ) : ℚ), none, true⟩ ∧
    (⟨"sk-or-v1-abc".toList, openrouterUrl, openrouterModel0,
        (digitsToNat ['0'] : ℚ) + (digitsToNat ['7'] : ℚ) / ((10 ^ 1 : ℕ) : ℚ), none,
        true⟩ : ConnDetails).base_url = openrouterUrl ∧
    (⟨"sk-or-v1-abc".toList, openrouterUrl, openrouterModel0,
        (digitsToNat ['0'] : ℚ) + (digitsToNat ['7'] : ℚ) / ((10 ^ 1 : ℕ) : ℚ), none,
        true⟩ : ConnDetails).model =
      ((fun (_ : List Char) => (none : Option (List Char))) ("DEEPSEEK_MODEL".toList)).getD
        openrouterModel0 := by
  have h := (endpoint_selection_by_key_shape (fun _ => none) (some ("sk-or-v1-abc".toList))
    (⟨"sk-or-v1-abc".toList, openrouterUrl, openrouterModel0,
      (digitsToNat ['0'] : ℚ) + (digitsToNat ['7'] : ℚ) / ((10 ^ 1 : ℕ) : ℚ), none, true⟩)
    rfl).1 (by decide)
  exact ⟨rfl, h.1, h.2⟩

theorem max_tokens_parse_behavior_witness :
    ((fun (_ : List Char) => (none : Option (List Char))) ("DEEPSEEK_MAX_TOKENS".toList) = none) ∧
    deepseekMaxTokens (fun _ => none) = some 2500 :=
  ⟨rfl, (max_tokens_parse_behavior (fun _ => none)).1 rfl⟩



theorem splitOnF_nil (sep : List Char) (fuel : ℕ) : splitOnF sep fuel [] = [[]] := by
  cases fuel <;> rfl

theorem splitOnF_cons_eq (sep : List Char) (fuel : ℕ) (c : Char) (rest : List Char) :
    splitOnF sep (fuel + 1) (c :: rest) =
      if sep <+: (c :: rest) then [] :: splitOnF sep fuel ((c :: rest).drop sep.length)
      else consHead c (splitOnF sep fuel rest) := rfl

theorem splitOnF_congr (sep : List Char) (hsep : sep ≠ []) :
    ∀ (fuel fuel' : ℕ) (s : List Char), s.length ≤ fuel → s.length ≤ fuel' →
      splitOnF sep fuel s = splitOnF sep fuel' s := by
  intro fuel
  induction fuel with
  | zero =>
    intro fuel' s hs hs'
    have hnil : s = [] := List.eq_nil_of_length_eq_zero (Nat.le_zero.mp hs)
    subst hnil
    rw [splitOnF_nil, splitOnF_nil]
  | succ fuel ih =>
    intro fuel' s hs hs'
    cases s with
    | nil => rw [splitOnF_nil, splitOnF_nil]
    | cons c rest =>
      cases fuel' with
      | zero => simp at hs'
      | succ fuel2 =>
        rw [splitOnF_cons_eq, splitOnF_cons_eq]
        have hlen := List.length_pos.mpr hsep
        simp only [List.length_cons] at hs hs'
        by_cases hp : sep <+: (c :: rest)
        · rw [if_pos hp, if_pos hp]
          congr 1
          apply ih
          · simp only [List.length_drop, List.length_cons]
            omega
          · simp only [List.length_drop, List.length_cons]
            omega
        · rw [if_neg hp, if_neg hp]
          congr 1
          apply ih <;> omega

theorem splitOnL_nil_input (sep : List Char) : splitOnL sep [] = [[]] := rfl

theorem splitOnL_cons (sep : List Char) (hsep : sep ≠ []) (c : Char) (rest : List Char) :
    splitOnL sep (c :: rest) =
      if sep <+: (c :: rest) then [] :: splitOnL sep ((c :: rest).drop sep.length)
      else consHead c (splitOnL sep rest) := by
  show splitOnF sep (rest.length + 1) (c :: rest) = _
  rw [splitOnF_cons_eq]
  by_cases hp : sep <+: (c :: rest)
  · rw [if_pos hp, if_pos hp]
    congr 1
    apply splitOnF_congr sep hsep
    · simp only [List.length_drop, List.length_cons]
      have := List.length_pos.mpr hsep
      omega
    · exact Nat.le_refl _
  · rw [if_neg hp, if_neg hp]
    rfl

theorem splitOnL_ind (sep : List Char) (hsep : sep ≠ []) (P : List Char → Prop)
    (h0 : P [])
    (h1 : ∀ c rest, sep <+: (c :: rest) → P ((c :: rest).drop sep.length) → P (c :: rest))
    (h2 : ∀ c rest, ¬ sep <+: (c :: rest) → P rest → P (c :: rest)) :
    ∀ s, P s
  | [] => h0
  | c :: rest =>
    if hp : sep <+: (c :: rest) then
      h1 c rest hp (splitOnL_ind sep hsep P h0 h1 h2 _)
    else
      h2 c rest hp (splitOnL_ind sep hsep P h0 h1 h2 rest)
termination_by s => s.length
decreasing_by
  · simp only [List.length_drop, List.length_cons]
    have := List.length_pos.mpr hsep
    omega
  · simp



theorem consHead_ne_nil (c : Char) (l : List (List Char)) : consHead c l ≠ [] := by
  cases l <;> simp [consHead]

theorem consHead_cons (c : Char) (p : List Char) (ps : List (List Char)) :
    consHead c (p :: ps) = (c :: p) :: ps := rfl

theorem joinSep_cons (glue p : List Char) (ps : List (List Char)) (h : ps ≠ []) :
    joinSep glue (p :: ps) = p ++ glue ++ joinSep glue ps := by
  cases ps with
  | nil => exact absurd rfl h
  | cons q qs => rfl

theorem splitOnL_ne_nil (sep : List Char) (hsep : sep ≠ []) (s : List Char) :
    splitOnL sep s ≠ [] := by
  refine splitOnL_ind sep hsep (fun s => splitOnL sep s ≠ []) ?_ ?_ ?_ s
  · simp [splitOnL_nil_input]
  · intro c rest hp _
    rw [splitOnL_cons sep hsep, if_pos hp]
    simp
  · intro c rest hp _
    rw [splitOnL_cons sep hsep, if_neg hp]
    exact consHead_ne_nil c _

theorem splitOnL_head_tail (sep : List Char) (hsep : sep ≠ []) (s : List Char) :
    ∃ q qs, splitOnL sep s = q :: qs := by
  cases h : splitOnL sep s with
  | nil => exact absurd h (splitOnL_ne_nil sep hsep s)
  | cons q qs => exact ⟨q, qs, rfl⟩

theorem joinSep_splitOnL (sep : List Char) (hsep : sep ≠ []) (s : List Char) :
    joinSep sep (splitOnL sep s) = s := by
  refine splitOnL_ind sep hsep (fun s => joinSep sep (splitOnL sep s) = s) ?_ ?_ ?_ s
  · rfl
  · intro c rest hp ih
    obtain ⟨t, ht⟩ := hp
    rw [splitOnL_cons sep hsep, if_pos ⟨t, ht⟩]
    rw [← ht, List.drop_left] at ih ⊢
    obtain ⟨q, qs, hqs⟩ := splitOnL_head_tail sep hsep t
    rw [hqs] at ih ⊢
    rw [joinSep_cons _ _ _ (by simp)]
    simpa using ih
  · intro c rest hp ih
    obtain ⟨q, qs, hqs⟩ := splitOnL_head_tail sep hsep rest
    rw [splitOnL_cons sep hsep, if_neg hp, hqs, consHead_cons]
    rw [hqs] at ih
    cases qs with
    | nil =>
      have hq : q = rest := ih
      rw [hq]
      rfl
    | cons q2 qs2 =>
      rw [joinSep_cons _ _ _ (by simp)] at ih ⊢
      simp only [List.cons_append]
      exact congrArg (c :: ·) ih

theorem head_of_splitOnL_prefix (sep : List Char) (hsep : sep ≠ []) (s p : List Char)
    (ps : List (List Char)) (h : splitOnL sep s = p :: ps) : p <+: s := by
  have hj := joinSep_splitOnL sep hsep s
  rw [h] at hj
  cases ps with
  | nil =>
    have : p = s := hj
    rw [this]
  | cons q qs =>
    rw [joinSep_cons _ _ _ (by simp)] at hj
    rw [← hj, List.append_assoc]
    exact List.prefix_append p _

theorem not_infix_of_mem_splitOnL (sep : List Char) (hsep : sep ≠ []) (s : List Char) :
    ∀ p ∈ splitOnL sep s, ¬ sep <:+: p := by
  refine splitOnL_ind sep hsep (fun s => ∀ p ∈ splitOnL sep s, ¬ sep <:+: p) ?_ ?_ ?_ s
  · intro p hp
    rw [splitOnL_nil_input] at hp
    simp at hp
    subst hp
    intro hinf
    exact hsep (List.eq_nil_of_infix_nil hinf)
  · intro c rest hp ih p hmem
    rw [splitOnL_cons sep hsep, if_pos hp] at hmem
    rcases List.mem_cons.mp hmem with h | h
    · subst h
      intro hinf
      exact hsep (List.eq_nil_of_infix_nil hinf)
    · exact ih p h
  · intro c rest hp ih p hmem
    obtain ⟨q, qs, hqs⟩ := splitOnL_head_tail sep hsep rest
    rw [splitOnL_cons sep hsep, if_neg hp, hqs, consHead_cons] at hmem
    rcases List.mem_cons.mp hmem with h | h
    · subst h
      intro hinf
      rcases List.infix_cons_iff.mp hinf with h2 | h2
      · have hq : q <+: rest := head_of_splitOnL_prefix sep hsep rest q qs hqs
        have : (c :: q) <+: (c :: rest) := List.cons_prefix_cons.mpr ⟨rfl, hq⟩
        exact hp (h2.trans this)
      · exact ih q (by rw [hqs]; exact List.mem_cons_self q qs) h2
    · exact ih p (by rw [hqs]; exact List.mem_cons_of_mem q h)

theorem splitOnL_eq_of_not_infix (sep : List Char) (hsep : sep ≠ []) (s : List Char)
    (h : ¬ sep <:+: s) : splitOnL sep s = [s] := by
  refine splitOnL_ind sep hsep (fun s => ¬ sep <:+: s → splitOnL sep s = [s]) ?_ ?_ ?_ s h
  · intro _
    rfl
  · intro c rest hp _ hni
    exact absurd hp.isInfix hni
  · intro c rest hp ih hni
    have hni2 : ¬ sep <:+: rest := fun h2 => hni (List.infix_cons_iff.mpr (Or.inr h2))
    rw [splitOnL_cons sep hsep, if_neg hp, ih hni2, consHead_cons]

theorem two_le_splitOnL_of_infix (sep : List Char) (hsep : sep ≠ []) (s : List Char)
    (h : sep <:+: s) : 2 ≤ (splitOnL sep s).length := by
  refine splitOnL_ind sep hsep (fun s => sep <:+: s → 2 ≤ (splitOnL sep s).length) ?_ ?_ ?_ s h
  · intro hinf
    exact absurd (List.eq_nil_of_infix_nil hinf) hsep
  · intro c rest hp _ _
    rw [splitOnL_cons sep hsep, if_pos hp]
    obtain ⟨q, qs, hqs⟩ := splitOnL_head_tail sep hsep ((c :: rest).drop sep.length)
    rw [hqs]
    simp
  · intro c rest hp ih hinf
    rcases List.infix_cons_iff.mp hinf with h2 | h2
    · exact absurd h2 hp
    · obtain ⟨q, qs, hqs⟩ := splitOnL_head_tail sep hsep rest
      rw [splitOnL_cons sep hsep, if_neg hp, hqs, consHead_cons]
      have := ih h2
      rw [hqs] at this
      simpa using this




theorem splitOnL_prepend (sep : List Char) (hsep : sep ≠ []) :
    ∀ (A J : List Char), noEarly sep A →
      splitOnL sep (A ++ sep ++ J) = A :: splitOnL sep J := by
  intro A
  induction A with
  | nil =>
    intro J _
    simp only [List.nil_append]
    rcases hs : sep with _ | ⟨s0, sep2⟩
    · exact absurd hs hsep
    · subst hs
      rw [List.cons_append]
      rw [splitOnL_cons _ hsep s0 (sep2 ++ J)]
      have hp : (s0 :: sep2) <+: (s0 :: (sep2 ++ J)) := by
        rw [← List.cons_append]
        exact List.prefix_append _ _
      rw [if_pos hp]
      congr 1
      rw [← List.cons_append, List.drop_left]
  | cons c A2 ihA =>
    intro J hne
    rw [noEarly] at hne
    obtain ⟨h1, h2⟩ := hne
    simp only [List.cons_append]
    rw [splitOnL_cons sep hsep]
    have hnp : ¬ sep <+: c :: (A2 ++ sep ++ J) := by
      intro hcontra
      apply h1
      have hx : sep <+: ((c :: A2) ++ sep) ++ J := by
        simpa [List.append_assoc, List.cons_append] using hcontra
      have hlen : sep.length ≤ ((c :: A2) ++ sep).length := by
        simp only [List.length_append, List.length_cons]
        omega
      exact (List.isPrefix_append_of_length hlen).mp hx
    rw [if_neg hnp, ihA J h2, consHead_cons]

theorem countOcc_sandwich (sep : List Char) (hsep : sep ≠ []) (A J : List Char)
    (hA : noEarly sep A) (hJ : ¬ sep <:+: J) : countOcc sep (A ++ sep ++ J) = 1 := by
  unfold countOcc
  rw [splitOnL_prepend sep hsep A J hA, splitOnL_eq_of_not_infix sep hsep J hJ]
  rfl

theorem prefix_append_split {l x y : List Char} (h : l <+: x ++ y) :
    l <+: x ∨ ∃ l₂, l = x ++ l₂ ∧ l₂ <+: y := by
  induction x generalizing l with
  | nil =>
    refine Or.inr ⟨l, by simp, ?_⟩
    simpa using h
  | cons c x2 ih =>
    cases l with
    | nil => exact Or.inl (List.nil_prefix)
    | cons d l2 =>
      rw [List.cons_append] at h
      obtain ⟨hd, hl⟩ := List.cons_prefix_cons.mp h
      subst hd
      rcases ih hl with h2 | ⟨l₃, rfl, h3⟩
      · exact Or.inl (List.cons_prefix_cons.mpr ⟨rfl, h2⟩)
      · exact Or.inr ⟨l₃, by simp, h3⟩

theorem infix_append_cases {l x y : List Char} (h : l <:+: x ++ y) :
    l <:+: x ∨ l <:+: y ∨
      ∃ l₁ l₂, l = l₁ ++ l₂ ∧ l₁ ≠ [] ∧ l₂ ≠ [] ∧ l₁ <:+ x ∧ l₂ <+: y := by
  induction x generalizing l with
  | nil =>
    rw [List.nil_append] at h
    exact Or.inr (Or.inl h)
  | cons c x2 ih =>
    rw [List.cons_append] at h
    rcases List.infix_cons_iff.mp h with h1 | h1
    · rw [← List.cons_append] at h1
      rcases prefix_append_split h1 with h2 | ⟨l₂, rfl, h3⟩
      · exact Or.inl h2.isInfix
      · cases l₂ with
        | nil =>
          rw [List.append_nil]
          exact Or.inl (List.infix_refl _)
        | cons d l₃ =>
          exact Or.inr (Or.inr ⟨c :: x2, d :: l₃, rfl, by simp, by simp,
            List.suffix_refl _, h3⟩)
    · rcases ih h1 with h2 | h2 | ⟨l₁, l₂, heq, hn1, hn2, hs, hpre⟩
      · exact Or.inl (List.infix_cons_iff.mpr (Or.inr h2))
      · exact Or.inr (Or.inl h2)
      · exact Or.inr (Or.inr ⟨l₁, l₂, heq, hn1, hn2, hs.trans (List.suffix_cons c x2), hpre⟩)

theorem not_infix_joinSep (sep : List Char) (hsep : sep ≠ []) (g : Char) (hg : g ∉ sep) :
    ∀ parts : List (List Char), (∀ p ∈ parts, ¬ sep <:+: p) →
      ¬ sep <:+: joinSep [g] parts := by
  intro parts
  induction parts with
  | nil =>
    intro _ hinf
    exact hsep (List.eq_nil_of_infix_nil hinf)
  | cons p ps ih =>
    intro hall hinf
    cases ps with
    | nil => exact hall p (by simp) hinf
    | cons q qs =>
      rw [joinSep_cons _ _ _ (by simp)] at hinf
      have hinf2 : sep <:+: p ++ (g :: joinSep [g] (q :: qs)) := by
        simpa [List.append_assoc] using hinf
      rcases infix_append_cases hinf2 with h1 | h1 | ⟨l₁, l₂, heq, hn1, hn2, _, hpre⟩
      · exact hall p (by simp) h1
      · rcases List.infix_cons_iff.mp h1 with h2 | h2
        · rcases hs : sep with _ | ⟨s0, sep2⟩
          · exact hsep hs
          · rw [hs] at h2
            obtain ⟨hd, _⟩ := List.cons_prefix_cons.mp h2
            apply hg
            rw [hs, hd]
            exact List.mem_cons_self _ _
        · exact ih (fun r hr => hall r (List.mem_cons_of_mem p hr)) h2
      · cases l₂ with
        | nil => exact hn2 rfl
        | cons d l₃ =>
          obtain ⟨hd, _⟩ := List.cons_prefix_cons.mp hpre
          apply hg
          rw [heq, hd]
          exact List.mem_append_right _ (List.mem_cons_self _ _)

theorem replaceF_cons_eq (sep r : List Char) (fuel : ℕ) (c : Char) (rest : List Char) :
    replaceF sep r (fuel + 1) (c :: rest) =
      if sep <+: (c :: rest) then r ++ replaceF sep r fuel ((c :: rest).drop sep.length)
      else c :: replaceF sep r fuel rest := rfl

theorem replaceL_cons_neg (sep r : List Char) (c : Char) (rest : List Char)
    (hp : ¬ sep <+: (c :: rest)) : replaceL sep r (c :: rest) = c :: replaceL sep r rest := by
  show replaceF sep r (rest.length + 1) (c :: rest) = _
  rw [replaceF_cons_eq, if_neg hp]
  rfl

theorem replaceL_of_not_infix (sep r : List Char) (hsep : sep ≠ []) (s : List Char)
    (h : ¬ sep <:+: s) : replaceL sep r s = s := by
  refine splitOnL_ind sep hsep (fun s => ¬ sep <:+: s → replaceL sep r s = s) ?_ ?_ ?_ s h
  · intro _
    rfl
  · intro c rest hp _ hni
    exact absurd hp.isInfix hni
  · intro c rest hp ih hni
    have hni2 : ¬ sep <:+: rest := fun h2 => hni (List.infix_cons_iff.mpr (Or.inr h2))
    rw [replaceL_cons_neg sep r c rest hp, ih hni2]



theorem noEarly_of_head_ne (sep : List Char) (s0 : Char) (sep2 : List Char)
    (hs : sep = s0 :: sep2) : ∀ A : List Char, (∀ a ∈ A, a ≠ s0) → noEarly sep A := by
  intro A
  induction A with
  | nil =>
    intro _
    trivial
  | cons c A2 ih =>
    intro h
    show (¬ sep <+: ((c :: A2) ++ sep)) ∧ noEarly sep A2
    refine ⟨?_, ih (fun a ha => h a (List.mem_cons_of_mem c ha))⟩
    intro hp
    rw [hs, List.cons_append] at hp
    obtain ⟨hd, _⟩ := List.cons_prefix_cons.mp hp
    exact h c (List.mem_cons_self c A2) hd.symm

theorem noEarly_head_of_splitOnL (sep : List Char) (hsep : sep ≠ []) :
    ∀ s A B ps, splitOnL sep s = A :: B :: ps → noEarly sep A := by
  refine splitOnL_ind sep hsep (fun s => ∀ A B ps, splitOnL sep s = A :: B :: ps → noEarly sep A)
    ?_ ?_ ?_
  · intro A B ps h
    rw [splitOnL_nil_input] at h
    simp at h
  · intro c rest hp _ A B ps h
    rw [splitOnL_cons sep hsep, if_pos hp] at h
    injection h with h1 _
    subst h1
    trivial
  · intro c rest hp ih A B ps h
    obtain ⟨q, qs, hqs⟩ := splitOnL_head_tail sep hsep rest
    rw [splitOnL_cons sep hsep, if_neg hp, hqs, consHead_cons] at h
    injection h with h1 h2
    subst h1
    rw [h2] at hqs
    show (¬ sep <+: ((c :: q) ++ sep)) ∧ noEarly sep q
    constructor
    · intro hcontra
      apply hp
      have hrest : rest = q ++ sep ++ joinSep sep (B :: ps) := by
        have hj := joinSep_splitOnL sep hsep rest
        rw [hqs, joinSep_cons _ _ _ (by simp)] at hj
        exact hj.symm
      have hpre : (c :: q) ++ sep <+: c :: rest := by
        rw [hrest]
        have : c :: (q ++ sep ++ joinSep sep (B :: ps)) =
            ((c :: q) ++ sep) ++ joinSep sep (B :: ps) := by
          simp [List.append_assoc]
        rw [this]
        exact List.prefix_append _ _
      exact hcontra.trans hpre
    · exact ih q B ps hqs

theorem singleton_infix_iff (a : Char) (l : List Char) : [a] <:+: l ↔ a ∈ l := by
  constructor
  · intro h
    exact h.sublist.subset (List.mem_singleton_self a)
  · intro h
    obtain ⟨s, t, rfl⟩ := List.append_of_mem h
    exact ⟨s, t, by simp⟩

theorem noEarly_single (a : Char) (A : List Char) (h : a ∉ A) : noEarly [a] A := by
  refine noEarly_of_head_ne [a] a [] rfl A ?_
  intro x hx heq
  rw [heq] at hx
  exact h hx

theorem splitOnL_joinSep_single (a : Char) :
    ∀ parts : List (List Char), parts ≠ [] → (∀ p ∈ parts, a ∉ p) →
      splitOnL [a] (joinSep [a] parts) = parts := by
  intro parts
  induction parts with
  | nil =>
    intro h
    exact absurd rfl h
  | cons p ps ih =>
    intro _ hall
    cases ps with
    | nil =>
      show splitOnL [a] p = [p]
      apply splitOnL_eq_of_not_infix _ (by simp)
      rw [singleton_infix_iff]
      exact hall p (by simp)
    | cons q qs =>
      rw [joinSep_cons _ _ _ (by simp)]
      rw [splitOnL_prepend [a] (by simp) p _ (noEarly_single a p (hall p (by simp)))]
      rw [ih (by simp) (fun r hr => hall r (List.mem_cons_of_mem _ hr))]



theorem normalizeOne_head (x : List Char) : ∃ r, normalizeOne x = '{' :: r := by
  unfold normalizeOne
  split
  · rename_i h
    obtain ⟨⟨t, ht⟩, _⟩ := h
    exact ⟨t, ht.symm⟩
  · exact ⟨_, rfl⟩

theorem mem_dedupAppend (y : List Char) :
    ∀ (l acc : List (List Char)), y ∈ dedupAppend acc l →
      y ∈ acc ∨ ∃ x ∈ l, y = normalizeOne x := by
  intro l
  induction l with
  | nil =>
    intro acc h
    exact Or.inl h
  | cons x rest ih =>
    intro acc h
    rw [dedupAppend] at h
    by_cases hmem : normalizeOne x ∈ acc
    · rw [if_pos hmem] at h
      rcases ih acc h with h1 | ⟨z, hz, he⟩
      · exact Or.inl h1
      · exact Or.inr ⟨z, List.mem_cons_of_mem x hz, he⟩
    · rw [if_neg hmem] at h
      rcases ih _ h with h1 | ⟨z, hz, he⟩
      · rcases List.mem_append.mp h1 with h2 | h2
        · exact Or.inl h2
        · exact Or.inr ⟨x, List.mem_cons_self x rest, by simpa using h2⟩
      · exact Or.inr ⟨z, List.mem_cons_of_mem x hz, he⟩

theorem head_brace_of_mem_normalize (raw ph : List Char)
    (h : ph ∈ normalizePlaceholders raw) : ∃ r, ph = '{' :: r := by
  unfold normalizePlaceholders at h
  rcases mem_dedupAppend ph _ [] h with h1 | ⟨x, _, he⟩
  · simp at h1
  · obtain ⟨r, hr⟩ := normalizeOne_head x
    exact ⟨r, by rw [he, hr]⟩

theorem countOcc_enforceOne (ph ph2 : List Char) (hph : ph = '{' :: ph2)
    (hsp : ' ' ∉ ph) (t : List Char) : countOcc ph (enforceOne t ph) = 1 := by
  have hsep : ph ≠ [] := by rw [hph]; simp
  rw [enforceOne]
  by_cases hin : ph <:+: t
  · rw [if_pos hin]
    by_cases hc : 1 < countOcc ph t
    · rw [if_pos hc]
      obtain ⟨p, ps, hqs⟩ := splitOnL_head_tail ph hsep t
      have hlen : 2 < (splitOnL ph t).length := by
        unfold countOcc at hc
        have h1 := (splitOnL ph t).length
        omega
      rw [hqs]
      obtain ⟨q, qs, hps⟩ : ∃ q qs, ps = q :: qs := by
        rw [hqs] at hlen
        cases ps with
        | nil => simp at hlen
        | cons q qs => exact ⟨q, qs, rfl⟩
      have hpartsfree : ∀ r ∈ ps, ¬ ph <:+: r := by
        intro r hr
        exact not_infix_of_mem_splitOnL ph hsep t r
          (by rw [hqs]; exact List.mem_cons_of_mem p hr)
      have hjoinfree : ¬ ph <:+: joinSep [' '] ps :=
        not_infix_joinSep ph hsep ' ' hsp ps hpartsfree
      have hJ : replaceL ph [] (joinSep [' '] ps) = joinSep [' '] ps :=
        replaceL_of_not_infix ph [] hsep _ hjoinfree
      show countOcc ph (p ++ ph ++ replaceL ph [] (joinSep [' '] ps)) = 1
      rw [hJ]
      have hne : noEarly ph p := by
        rw [hps] at hqs
        exact noEarly_head_of_splitOnL ph hsep t p q qs hqs
      exact countOcc_sandwich ph hsep p _ hne hjoinfree
    · rw [if_neg hc]
      have h2 := two_le_splitOnL_of_infix ph hsep t hin
      unfold countOcc at hc ⊢
      omega
  · rw [if_neg hin]
    have hA : noEarly ph ("Hello ".toList) := by
      refine noEarly_of_head_ne ph '{' ph2 hph _ ?_
      have hall : ∀ a ∈ "Hello ".toList, a ≠ '{' := by decide
      exact hall
    have hJ : ¬ ph <:+: (", ".toList ++ t) := by
      intro hcontra
      rw [show (", ".toList ++ t) = ',' :: (' ' :: t) from rfl] at hcontra
      rcases List.infix_cons_iff.mp hcontra with h1 | h1
      · rw [hph] at h1
        exact absurd (List.cons_prefix_cons.mp h1).1 (by decide)
      · rcases List.infix_cons_iff.mp h1 with h2 | h2
        · rw [hph] at h2
          exact absurd (List.cons_prefix_cons.mp h2).1 (by decide)
        · exact hin h2
    have hres := countOcc_sandwich ph hsep ("Hello ".toList) (", ".toList ++ t) hA hJ
    rw [List.append_assoc ("Hello ".toList ++ ph) (", ".toList) t]
    exact hres

/-- C1 (amended): when the normalized placeholder set is a single placeholder
containing no space character, post-processing leaves that placeholder in the
returned text exactly once (Python count semantics), for every upstream text:
absent placeholders are prepended once, duplicated ones are collapsed.  With
several (overlapping) placeholders, or a placeholder containing a space, the
exactly-once guarantee fails (see the counterexample). -/
theorem postprocess_single_placeholder_exactly_once (raw ph t : List Char)
    (hn : normalizePlaceholders raw = [ph]) (hsp : ' ' ∉ ph) :
    countOcc ph (postProcess (normalizePlaceholders raw) t) = 1 := by
  obtain ⟨ph2, hph⟩ := head_brace_of_mem_normalize raw ph
    (by rw [hn]; exact List.mem_cons_self ph [])
  rw [hn]
  show countOcc ph (enforceOne t ph) = 1
  exact countOcc_enforceOne ph ph2 hph hsp t




/-- C1 counterexample: for the placeholder set normalized from "a, a\x7db"
(which is ["\x7ba\x7d", "\x7ba\x7db\x7d"]) and upstream text "z", the
post-processed text contains the placeholder "\x7ba\x7d" twice, not exactly
once: the later placeholder's prepended greeting embeds another copy of the
earlier one. -/
theorem postprocess_exactly_once_counterexample :
    normalizePlaceholders ['a', ',', ' ', 'a', '}', 'b'] =
      [['{', 'a', '}'], ['{', 'a', '}', 'b', '}']] ∧
    countOcc ['{', 'a', '}']
      (postProcess (normalizePlaceholders ['a', ',', ' ', 'a', '}', 'b']) ['z']) = 2 ∧
    (2 : ℕ) ≠ 1 := by
  refine ⟨by decide, by decide, by decide⟩

theorem postprocess_single_placeholder_exactly_once_witness :
    normalizePlaceholders ("name".toList) = [defaultPh] ∧ (' ' ∉ defaultPh) ∧
    countOcc defaultPh
      (postProcess (normalizePlaceholders ("name".toList))
        ("Wishing you joy this season!".toList)) = 1 :=
  ⟨by decide, by decide,
    postprocess_single_placeholder_exactly_once ("name".toList) defaultPh
      ("Wishing you joy this season!".toList) (by decide) (by decide)⟩

theorem mem_stripBoth (pr : Char → Bool) (s : List Char) (a : Char)
    (h : a ∈ stripBoth pr s) : a ∈ s := by
  unfold stripBoth stripTrailing stripLeading at h
  rw [List.mem_reverse] at h
  have h2 := (List.dropWhile_sublist pr).mem h
  rw [List.mem_reverse] at h2
  exact (List.dropWhile_sublist pr).mem h2

theorem normalizeOne_wf (x : List Char) (hx : x ≠ []) (hc : ',' ∉ x) :
    phWf (normalizeOne x) := by
  unfold normalizeOne
  split
  · rename_i h
    exact ⟨hx, h.1, h.2, hc⟩
  · refine ⟨by simp, ⟨stripBoth isBraceSpace x ++ ['}'], rfl⟩, ?_, ?_⟩
    · refine ⟨'{' :: stripBoth isBraceSpace x, ?_⟩
      simp
    · intro hmem
      rcases List.mem_cons.mp hmem with h1 | h1
      · exact absurd h1 (by decide)
      · rcases List.mem_append.mp h1 with h2 | h2
        · exact hc (mem_stripBoth _ _ _ h2)
        · rw [List.mem_singleton] at h2
          exact absurd h2 (by decide)

theorem rawPlaceholders_mem (raw x : List Char) (h : x ∈ rawPlaceholders raw) :
    x ≠ [] ∧ ',' ∉ x := by
  rw [rawPlaceholders] at h
  split at h
  · rw [List.mem_singleton] at h
    subst h
    exact ⟨by decide, by decide⟩
  · obtain ⟨hmap, hne⟩ := List.mem_filter.mp h
    obtain ⟨q, hq, rfl⟩ := List.mem_map.mp hmap
    constructor
    · simpa using hne
    · intro hcm
      have hqmem : ',' ∈ q := mem_stripBoth _ _ _ hcm
      exact not_infix_of_mem_splitOnL [','] (by simp) raw q hq
        ((singleton_infix_iff ',' q).mpr hqmem)

theorem mem_normalize_wf (raw ph : List Char) (h : ph ∈ normalizePlaceholders raw) :
    phWf ph := by
  unfold normalizePlaceholders at h
  rcases mem_dedupAppend ph _ [] h with h1 | ⟨x, hx, rfl⟩
  · simp at h1
  · obtain ⟨hne, hc⟩ := rawPlaceholders_mem raw x hx
    exact normalizeOne_wf x hne hc

theorem dedupAppend_nodup : ∀ (l acc : List (List Char)), acc.Nodup →
    (dedupAppend acc l).Nodup := by
  intro l
  induction l with
  | nil =>
    intro acc h
    exact h
  | cons x rest ih =>
    intro acc h
    rw [dedupAppend]
    by_cases hmem : normalizeOne x ∈ acc
    · rw [if_pos hmem]
      exact ih acc h
    · rw [if_neg hmem]
      refine ih _ ?_
      simp [List.nodup_append, h, hmem]

theorem dedupAppend_prefix : ∀ (l acc : List (List Char)), acc <+: dedupAppend acc l := by
  intro l
  induction l with
  | nil =>
    intro acc
    exact List.prefix_rfl
  | cons x rest ih =>
    intro acc
    rw [dedupAppend]
    by_cases hmem : normalizeOne x ∈ acc
    · rw [if_pos hmem]
      exact ih acc
    · rw [if_neg hmem]
      exact (List.prefix_append acc [normalizeOne x]).trans (ih _)

theorem normalizePlaceholders_ne_nil (raw : List Char) : normalizePlaceholders raw ≠ [] := by
  unfold normalizePlaceholders
  obtain ⟨x, rest, hx⟩ : ∃ x rest, rawPlaceholders raw = x :: rest := by
    rw [rawPlaceholders]
    split
    · exact ⟨defaultPh, [], rfl⟩
    · rename_i hne
      cases hp : ((splitOnL [','] raw).map pyStripWs).filter (fun p => p ≠ []) with
      | nil => exact absurd hp hne
      | cons a l => exact ⟨a, l, rfl⟩
  rw [hx, dedupAppend, if_neg (by simp)]
  intro hcontra
  simp only [List.nil_append] at hcontra
  have hpre := dedupAppend_prefix rest [normalizeOne x]
  rw [hcontra] at hpre
  simpa using hpre.length_le

theorem pyStripWs_of_wf (p : List Char) (h : phWf p) : pyStripWs p = p := by
  obtain ⟨hne, ⟨t1, ht1⟩, ⟨t2, ht2⟩, _⟩ := h
  have h1 : stripLeading isPyWs p = p := by
    rw [← ht1]
    show List.dropWhile isPyWs ('{' :: t1) = '{' :: t1
    rw [List.dropWhile_cons, if_neg (by decide)]
  have h2 : stripTrailing isPyWs p = p := by
    show (p.reverse.dropWhile isPyWs).reverse = p
    rw [← ht2, List.reverse_append]
    show ((['}'].reverse ++ t2.reverse).dropWhile isPyWs).reverse = t2 ++ ['}']
    rw [show ['}'].reverse ++ t2.reverse = '}' :: t2.reverse from by simp]
    rw [List.dropWhile_cons, if_neg (by decide)]
    simp
  show stripTrailing isPyWs (stripLeading isPyWs p) = p
  rw [h1, h2]

theorem normalizeOne_of_wf (p : List Char) (h : phWf p) : normalizeOne p = p := by
  unfold normalizeOne
  rw [if_pos ⟨h.2.1, h.2.2.1⟩]

theorem dedupAppend_of_fixed : ∀ (l acc : List (List Char)),
    (∀ x ∈ l, normalizeOne x = x) → l.Nodup → (∀ x ∈ l, x ∉ acc) →
    dedupAppend acc l = acc ++ l := by
  intro l
  induction l with
  | nil =>
    intro acc _ _ _
    simp [dedupAppend]
  | cons x rest ih =>
    intro acc hfix hnd hdisj
    rw [dedupAppend, hfix x (List.mem_cons_self x rest),
      if_neg (hdisj x (List.mem_cons_self x rest))]
    rw [ih (acc ++ [x]) (fun y hy => hfix y (List.mem_cons_of_mem _ hy))
      (List.nodup_cons.mp hnd).2 ?_]
    · simp
    · intro y hy hymem
      rcases List.mem_append.mp hymem with h1 | h1
      · exact hdisj y (List.mem_cons_of_mem _ hy) h1
      · rw [List.mem_singleton] at h1
        subst h1
        exact (List.nodup_cons.mp hnd).1 hy

/-- C9: PlaceholderSet normalization is idempotent: normalizing the
comma-joined result of a normalization yields the same sequence, for every
raw comma-separated placeholder string. -/
theorem normalize_placeholders_idempotent (raw : List Char) :
    normalizePlaceholders (joinSep [','] (normalizePlaceholders raw)) =
      normalizePlaceholders raw := by
  have hwf : ∀ p ∈ normalizePlaceholders raw, phWf p :=
    fun p hp => mem_normalize_wf raw p hp
  have hnd : (normalizePlaceholders raw).Nodup := dedupAppend_nodup _ [] List.nodup_nil
  have hne : normalizePlaceholders raw ≠ [] := normalizePlaceholders_ne_nil raw
  have hcomma : ∀ p ∈ normalizePlaceholders raw, ',' ∉ p := fun p hp => (hwf p hp).2.2.2
  have hsplit : splitOnL [','] (joinSep [','] (normalizePlaceholders raw)) =
      normalizePlaceholders raw :=
    splitOnL_joinSep_single ',' (normalizePlaceholders raw) hne hcomma
  have hraw : rawPlaceholders (joinSep [','] (normalizePlaceholders raw)) =
      normalizePlaceholders raw := by
    rw [rawPlaceholders, hsplit]
    have hmap : (normalizePlaceholders raw).map pyStripWs = normalizePlaceholders raw := by
      rw [List.map_congr_left (fun a ha => pyStripWs_of_wf a (hwf a ha))]
      exact List.map_id _
    rw [hmap]
    have hfil : (normalizePlaceholders raw).filter (fun p => p ≠ []) =
        normalizePlaceholders raw := by
      apply List.filter_eq_self.mpr
      intro a ha
      simpa using (hwf a ha).1
    rw [hfil, if_neg hne]
  calc normalizePlaceholders (joinSep [','] (normalizePlaceholders raw))
      = dedupAppend [] (rawPlaceholders (joinSep [','] (normalizePlaceholders raw))) := rfl
    _ = dedupAppend [] (normalizePlaceholders raw) := by rw [hraw]
    _ = [] ++ normalizePlaceholders raw :=
        dedupAppend_of_fixed _ [] (fun x hx => normalizeOne_of_wf x (hwf x hx)) hnd (by simp)
    _ = normalizePlaceholders raw := by simp

end MTG
